import Mathlib

/-!
Verification of the patch-relative issue filtering and review-decision
pipeline of golangci-lint-runner.

Go strings are modelled as lists of characters (`GoStr`); for the ASCII
inputs handled here Go's byte indexing and the character indexing agree.
Go panics are modelled as the `Except.error` outcomes of `GoPanic`; the
function's ordinary error return (reader failures) cannot occur on a pure
list of input lines, so a successful pass is `Except.ok`.
-/

set_option maxRecDepth 4000

abbrev GoStr := List Char

/-- Model of Go strings.Split with a one-character separator. -/
def goSplit : GoStr → Char → List GoStr
  | [], _ => [[]]
  | c :: rest, sep =>
    if c = sep then
      [] :: goSplit rest sep
    else
      match goSplit rest sep with
      | [] => [[c]]
      | g :: gs => (c :: g) :: gs

/-- Model of Go strconv.ParseUint(s, 10, 64): digits only, no sign, value
below 2^64. -/
def parseUint10 (s : GoStr) : Option Nat :=
  if s = [] then none
  else if s.all Char.isDigit then
    let v := s.foldl (fun acc c => acc * 10 + (c.toNat - 48)) 0
    if v < 2 ^ 64 then some v else none
  else none

/-- Go conversion int(u) from uint64 to int64 (two's complement wrap). -/
def int64ofUint64 (n : Nat) : Int :=
  if n < 2 ^ 63 then (n : Int) else (n : Int) - 2 ^ 64

/-- The run-time aborts of linesChanged: slice expressions out of bounds,
index expressions out of range, and the explicit panic(err) on a failed
ParseUint. -/
inductive GoPanic where
  | sliceBounds
  | indexBounds
  | parseUint (s : GoStr)
deriving DecidableEq, Repr

/-- linter.go: type pos struct, line number and position relative to the
first hunk header of the file. -/
structure Pos where
  lineNo : Int
  hunkPos : Int
deriving DecidableEq, Repr

abbrev ChangesMap := List (GoStr × List Pos)

/-- Go map assignment changes[k] = v on the association-list model. -/
def mapSet : ChangesMap → GoStr → List Pos → ChangesMap
  | [], k, v => [(k, v)]
  | (k1, v1) :: rest, k, v =>
    if k1 = k then (k, v) :: rest else (k1, v1) :: mapSet rest k v

/-- Go map lookup m[k] (presence of the key). -/
def mapGet : ChangesMap → GoStr → Option (List Pos)
  | [], _ => none
  | (k1, v1) :: rest, k => if k1 = k then some v1 else mapGet rest k

/-- linter.go: the local state of linesChanged.  changes is an Option so
that the Go distinction between a nil slice (no "+++ " marker seen yet)
and an empty non-nil slice is preserved. -/
structure LcState where
  file : GoStr
  lineNo : Int
  hunkPos : Int
  changes : Option (List Pos)
deriving Repr

/-- linter.go:141-144: record the last state into the map, but only when
a "+++ " marker has already produced a non-nil changes slice. -/
def commitChanges (m : ChangesMap) (s : LcState) : ChangesMap :=
  match s.changes with
  | some cs => mapSet m s.file cs
  | none => m

/-- One iteration of the line loop of linesChanged (linter.go:137-164):
the generic lineNo/hunkPos increments followed by the four-case switch. -/
def lineStep (m : ChangesMap) (s0 : LcState) (line : GoStr) :
    Except GoPanic (ChangesMap × LcState) :=
  let s := { s0 with lineNo := s0.lineNo + 1, hunkPos := s0.hunkPos + 1 }
  if ['+', '+', '+', ' '].isPrefixOf line ∧ 4 < line.length then
    -- record the last state, then start afresh; line[6:] removes "+++ b/"
    let m1 := commitChanges m s
    if line.length < 6 then
      Except.error GoPanic.sliceBounds
    else
      Except.ok (m1, { file := line.drop 6, lineNo := 0, hunkPos := -1, changes := some [] })
  else if ['@', '@', ' '].isPrefixOf line then
    match (goSplit line ' ').get? 2 with
    | none => Except.error GoPanic.indexBounds
    | some c2 =>
      match goSplit c2 ',' with
      | [] => Except.error GoPanic.indexBounds
      | a0 :: _ =>
        if a0.length < 1 then
          Except.error GoPanic.sliceBounds
        else
          match parseUint10 (a0.drop 1) with
          | none => Except.error (GoPanic.parseUint (a0.drop 1))
          | some cstart => Except.ok (m, { s with lineNo := int64ofUint64 cstart - 1 })
  else if ['-'].isPrefixOf line then
    Except.ok (m, { s with lineNo := s.lineNo - 1 })
  else if ['+'].isPrefixOf line then
    Except.ok (m, { s with changes := some (s.changes.getD [] ++ [{ lineNo := s.lineNo, hunkPos := s.hunkPos }]) })
  else
    Except.ok (m, s)

/-- The Readln loop of linesChanged over the list of input lines. -/
def linesChangedLoop (m : ChangesMap) (s : LcState) :
    List GoStr → Except GoPanic (ChangesMap × LcState)
  | [] => Except.ok (m, s)
  | l :: ls =>
    match lineStep m s l with
    | Except.error e => Except.error e
    | Except.ok (m1, s1) => linesChangedLoop m1 s1 ls

/-- linter.go:120-173 linesChanged: run the loop from the zero state and
record the last state at end of input. -/
def linesChanged (lines : List GoStr) : Except GoPanic ChangesMap :=
  match linesChangedLoop [] { file := [], lineNo := 0, hunkPos := 0, changes := none } lines with
  | Except.error e => Except.error e
  | Except.ok (m, s) => Except.ok (mapSet m s.file (s.changes.getD []))

inductive HunkLine where
  | ctx (t : GoStr)
  | add (t : GoStr)
  | del (t : GoStr)
deriving DecidableEq, Repr

structure Hunk where
  oldStart : Nat
  oldCount : Nat
  newStart : Nat
  newCount : Nat
  lines : List HunkLine
deriving DecidableEq, Repr

structure FileDiff where
  path : GoStr
  hunks : List Hunk
deriving DecidableEq, Repr

structure SynthDiff where
  files : List FileDiff
deriving DecidableEq, Repr

def digitChar (d : Nat) : Char :=
  match d with
  | 0 => '0'
  | 1 => '1'
  | 2 => '2'
  | 3 => '3'
  | 4 => '4'
  | 5 => '5'
  | 6 => '6'
  | 7 => '7'
  | 8 => '8'
  | _ => '9'

/-- Big-endian decimal digits, fuel-structured so that it reduces. -/
def natDigitsF : Nat → Nat → List Char
  | 0, _ => []
  | fuel + 1, n => if n = 0 then [] else natDigitsF fuel (n / 10) ++ [digitChar (n % 10)]

def natDigits (n : Nat) : List Char :=
  natDigitsF n n

/-- Decimal rendering of a natural number. -/
def natDec (n : Nat) : GoStr :=
  if n = 0 then ['0'] else natDigits n

def renderHunkLine : HunkLine → GoStr
  | HunkLine.ctx t => ' ' :: t
  | HunkLine.add t => '+' :: t
  | HunkLine.del t => '-' :: t

/-- The hunk header "@@ -a,b +c,d @@", written in the nested shape used by
the parsing lemmas. -/
def renderHeader (h : Hunk) : GoStr :=
  ['@', '@'] ++
    (' ' :: (('-' :: (natDec h.oldStart ++ (',' :: natDec h.oldCount))) ++
      (' ' :: (('+' :: (natDec h.newStart ++ (',' :: natDec h.newCount))) ++
        (' ' :: ['@', '@'])))))

def renderHunk (h : Hunk) : List GoStr :=
  renderHeader h :: h.lines.map renderHunkLine

def renderFile (f : FileDiff) : List GoStr :=
  ('-' :: '-' :: '-' :: ' ' :: 'a' :: '/' :: f.path) ::
    ('+' :: '+' :: '+' :: ' ' :: 'b' :: '/' :: f.path) :: (f.hunks.map renderHunk).flatten

def renderDiff (d : SynthDiff) : List GoStr :=
  (d.files.map renderFile).flatten

/-- A rendered addition line must not itself look like a "+++ " file
marker, and the hunk start must fit a nonnegative int64. -/
def wfLine : HunkLine → Bool
  | HunkLine.add t => !(['+', '+', ' '].isPrefixOf t)
  | _ => true

def wfHunk (h : Hunk) : Bool :=
  decide (h.newStart < 2 ^ 63) && h.lines.all wfLine

def wfFile (f : FileDiff) : Bool :=
  f.hunks.all wfHunk

def WfDiff (d : SynthDiff) : Prop :=
  (d.files.map FileDiff.path).Nodup ∧ d.files.all wfFile = true

instance (d : SynthDiff) : Decidable (WfDiff d) := by
  unfold WfDiff; infer_instance

/-- The positions linesChanged records for a run of hunk lines, starting
from the given lineNo/hunkPos counters; also returns the final counters. -/
def hunkLinesPos (lineNo hunkPos : Int) : List HunkLine → List Pos × Int × Int
  | [] => ([], lineNo, hunkPos)
  | HunkLine.ctx _ :: rest => hunkLinesPos (lineNo + 1) (hunkPos + 1) rest
  | HunkLine.del _ :: rest => hunkLinesPos lineNo (hunkPos + 1) rest
  | HunkLine.add _ :: rest =>
    let r := hunkLinesPos (lineNo + 1) (hunkPos + 1) rest
    ({ lineNo := lineNo + 1, hunkPos := hunkPos + 1 } :: r.1, r.2)

/-- The positions recorded across a file's hunks (header resets lineNo,
hunkPos keeps running); returns final lineNo and hunkPos as well. -/
def hunksPos (lineNo hunkPos : Int) : List Hunk → List Pos × Int × Int
  | [] => ([], lineNo, hunkPos)
  | h :: rest =>
    let r := hunkLinesPos ((h.newStart : Int) - 1) (hunkPos + 1) h.lines
    let r2 := hunksPos r.2.1 r.2.2 rest
    (r.1 ++ r2.1, r2.2)

def filePositions (f : FileDiff) : List Pos :=
  (hunksPos 0 (-1) f.hunks).1

/-- From the specification's words: an addition-marked line of a hunk is
added at line number newStart plus the count of preceding context and
addition lines of that hunk (c carries the preceding count). -/
def specHunkAddedAux (newStart : Nat) : List HunkLine → Nat → List Int
  | [], _ => []
  | HunkLine.add _ :: rest, c => ((newStart : Int) + c) :: specHunkAddedAux newStart rest (c + 1)
  | HunkLine.ctx _ :: rest, c => specHunkAddedAux newStart rest (c + 1)
  | HunkLine.del _ :: rest, c => specHunkAddedAux newStart rest c

def specFileAdded (f : FileDiff) : List Int :=
  (f.hunks.map fun h => specHunkAddedAux h.newStart h.lines 0).flatten

def specAdded (d : SynthDiff) : List (GoStr × Int) :=
  (d.files.map fun f => (specFileAdded f).map fun n => (f.path, n)).flatten

/-- All (file, lineNumber) pairs recorded in a result mapping. -/
def recordedPairs (m : ChangesMap) : List (GoStr × Int) :=
  (m.map fun e => e.2.map fun p => (e.1, p.lineNo)).flatten

/-- The (map, pending file, pending changes) evolution across a list of
file sections: each new "+++ " marker commits the pending section. -/
def filesFold (m : ChangesMap) (p : GoStr) (cs : List Pos) :
    List FileDiff → ChangesMap × GoStr × List Pos
  | [] => (m, p, cs)
  | f :: fs => filesFold (mapSet m p cs) f.path (filePositions f) fs

/-- The mapping linesChanged returns on a rendered synthetic diff. -/
def goMap (d : SynthDiff) : ChangesMap :=
  match d.files with
  | [] => [([], [])]
  | f :: fs =>
    mapSet (filesFold [] f.path (filePositions f) fs).1
      (filesFold [] f.path (filePositions f) fs).2.1
      (filesFold [] f.path (filePositions f) fs).2.2

/-- A synthetic diff exercising two files, multiple hunks, context,
deletion and addition lines. -/
def c1WitnessDiff : SynthDiff :=
  { files := [
      { path := "pkg/foo.go".data,
        hunks := [
          { oldStart := 10, oldCount := 0, newStart := 40, newCount := 5,
            lines := [HunkLine.add "a := 1".data, HunkLine.ctx "x".data,
                      HunkLine.del "y".data, HunkLine.add "b := 2".data] },
          { oldStart := 50, oldCount := 2, newStart := 90, newCount := 2,
            lines := [HunkLine.del "u".data, HunkLine.add "v".data] }] },
      { path := "pkg/bar.go".data,
        hunks := [
          { oldStart := 1, oldCount := 1, newStart := 1, newCount := 0,
            lines := [HunkLine.del "gone".data] }] }] }

def isAddLine : HunkLine → Bool
  | HunkLine.add _ => true
  | _ => false

def c8WitnessFile : FileDiff :=
  { path := "only-del.go".data,
    hunks := [
      { oldStart := 3, oldCount := 2, newStart := 3, newCount := 0,
        lines := [HunkLine.del "p".data, HunkLine.del "q".data] }] }

def c8WitnessDiff : SynthDiff :=
  { files := [c8WitnessFile, { path := "n.go".data, hunks := [] }] }

/-- The invariant of one recorded position list: strictly increasing
hunkPos values, all nonnegative. -/
def goodList (cs : List Pos) : Prop :=
  (cs.map Pos.hunkPos).Pairwise (· < ·) ∧ ∀ p ∈ cs, 0 ≤ p.hunkPos

def mapInv (m : ChangesMap) : Prop :=
  ∀ e ∈ m, goodList e.2

def stateInv (s : LcState) : Prop :=
  -1 ≤ s.hunkPos ∧
    ∀ cs, s.changes = some cs → goodList cs ∧ ∀ p ∈ cs, p.hunkPos ≤ s.hunkPos

def c2WitnessLines : List GoStr :=
  ["+++ b/a.go".data, "@@ -1,2 +3,4 @@".data, "+x".data, " k".data, "+y".data,
   "+++ b/b.go".data, "@@ -1,0 +7,2 @@".data, "+z".data]

def c2WitnessMap : ChangesMap :=
  [("a.go".data, [{ lineNo := 3, hunkPos := 1 }, { lineNo := 5, hunkPos := 3 }]),
   ("b.go".data, [{ lineNo := 7, hunkPos := 1 }])]

structure GoIssue where
  file : String
  line : Int
  text : String
  fromLinter : String
  hunkPos : Int
deriving DecidableEq, Repr

structure DraftReviewComment where
  path : String
  position : Int
  body : String
deriving DecidableEq, Repr

structure ReviewRequest where
  commitID : String
  body : Option String
  event : Option String
  comments : List DraftReviewComment
deriving DecidableEq, Repr

/-- part_005 Runner.Run lines 264-283: render each filtered issue into a
draft review comment; Position is the issue's HunkPos and the linter name
is appended to the text when Output.PrintLinterName is set. The dedup loop
of the earlier revision is commented out here. -/
def Run_comments (printLinterName : Bool) (issues : List GoIssue) :
    List DraftReviewComment :=
  issues.map fun i =>
    { path := i.file
      position := i.hunkPos
      body := if printLinterName then i.text ++ " (from " ++ i.fromLinter ++ ")" else i.text }

/-- runner.go Runner.Run lines 163-184: build the comment list, appending
the linter name when configured, and skip a comment whose (path, position,
body) triple already occurs in the list being built; Position is HunkPos. -/
def RunV1_comments (includeLinterName : Bool) (issues : List GoIssue) :
    List DraftReviewComment :=
  issues.foldl
    (fun acc i =>
      let t := if includeLinterName then i.text ++ " (from " ++ i.fromLinter ++ ")" else i.text
      let c : DraftReviewComment := { path := i.file, position := i.hunkPos, body := t }
      if acc.contains c then acc else acc ++ [c])
    []

/-- runner.go (older revision) Runner.Run lines 463-484: the same loop, but
the comment's Position field is filled from the issue's LineNumber. -/
def RunV2_comments (includeLinterName : Bool) (issues : List GoIssue) :
    List DraftReviewComment :=
  issues.foldl
    (fun acc i =>
      let t := if includeLinterName then i.text ++ " (from " ++ i.fromLinter ++ ")" else i.text
      let c : DraftReviewComment := { path := i.file, position := i.line, body := t }
      if acc.contains c then acc else acc ++ [c])
    []

/-- The run state part_005 Runner.Run consumes after clone/lint/filter:
whether the patch contains Go code, the policy flags, the filtered issues
and the analyzer's tool-warning count. -/
structure RunInput where
  goCode : Bool
  noChangesText : String
  approve : Bool
  requestChanges : Bool
  printLinterName : Bool
  issues : List GoIssue
  warnings : Nat
deriving Repr

/-- part_005 Runner.Run lines 186-290: the review request handed to
sendReview, or none when the run returns with no review. The warning block
built at lines 236-248 goes into a local strings.Builder that is never
written back to the request, so the body does not depend on warnings. -/
def Run_review (sha : String) (inp : RunInput) : Option ReviewRequest :=
  if !inp.goCode then
    if inp.noChangesText = "" && !inp.approve then none
    else
      some { commitID := sha
             body := if inp.noChangesText ≠ "" then some inp.noChangesText else none
             event := some (if inp.approve then "APPROVE" else "COMMENT")
             comments := [] }
  else
    some { commitID := sha
           body := if inp.issues.length > 0 then
               some ("golangci-lint found " ++ toString inp.issues.length ++ " issues")
             else none
           event := some (if inp.issues.length ≤ 0 ∧ inp.warnings ≤ 0 then
               (if inp.approve then "APPROVE" else "COMMENT")
             else
               (if inp.requestChanges then "REQUEST_CHANGES" else "COMMENT"))
           comments := Run_comments inp.printLinterName inp.issues }

def c4WitnessInput : RunInput :=
  { goCode := true, noChangesText := "", approve := true, requestChanges := false,
    printLinterName := false, issues := [],
    warnings := 1 }

def c6CounterInput : RunInput :=
  { goCode := true, noChangesText := "", approve := false, requestChanges := false,
    printLinterName := false, issues := [],
    warnings := 0 }

def c5Issue : GoIssue :=
  { file := "a.go", line := 12, text := "unused var", fromLinter := "unused",
    hunkPos := 5 }

/-- One comment as rendered by the dedup loop of runner.go:163-184. -/
def renderComment (includeLinterName : Bool) (i : GoIssue) : DraftReviewComment :=
  { path := i.file, position := i.hunkPos,
    body := if includeLinterName then i.text ++ " (from " ++ i.fromLinter ++ ")" else i.text }

def c3Issue : GoIssue :=
  { file := "a.go", line := 7, text := "x", fromLinter := "govet", hunkPos := 2 }

structure WireError where
  statusCode : Nat
  publicError : String
  privateError : String
deriving DecidableEq, Repr

/-- runner.go Server.handlePullRequestOpened lines 865-876: the select with
default on the bounded queue channel, modelled on the queue contents: the
buffered channel of capacity queueSize accepts the send iff its buffer is
not full, otherwise the default branch returns the 503 wire error and the
queue contents are untouched. -/
def handlePullRequestOpened_enqueue {α : Type} (queue : List α) (queueSize : Nat) (r : α) :
    Except WireError Unit × List α :=
  if queue.length < queueSize then
    (Except.ok (), queue ++ [r])
  else
    (Except.error { statusCode := 503, publicError := "try again later",
                    privateError := "queue is full" }, queue)

lemma digitChar_isDigit (d : Nat) : (digitChar d).isDigit = true := by
  rcases d with _ | _ | _ | _ | _ | _ | _ | _ | _ | m <;> rfl

lemma toNat_digitChar (d : Nat) (h : d < 10) : (digitChar d).toNat - 48 = d := by
  rcases d with _ | _ | _ | _ | _ | _ | _ | _ | _ | m
  all_goals first
    | rfl
    | (have hm : m = 0 := by omega
       subst hm
       rfl)

lemma isDigit_ne_space {c : Char} (h : c.isDigit = true) : c ≠ ' ' := by
  intro he
  subst he
  exact absurd h (by decide)

lemma isDigit_ne_comma {c : Char} (h : c.isDigit = true) : c ≠ ',' := by
  intro he
  subst he
  exact absurd h (by decide)

lemma natDigitsF_all_digits : ∀ fuel n : Nat, ∀ c ∈ natDigitsF fuel n, c.isDigit = true := by
  intro fuel
  induction fuel with
  | zero => intro n c hc; simp [natDigitsF] at hc
  | succ f ih =>
    intro n c hc
    by_cases hn : n = 0
    · simp [natDigitsF, hn] at hc
    · simp only [natDigitsF, if_neg hn, List.mem_append, List.mem_singleton] at hc
      rcases hc with hc | hc
      · exact ih _ c hc
      · subst hc; exact digitChar_isDigit _

lemma natDec_all_digits (n : Nat) : ∀ c ∈ natDec n, c.isDigit = true := by
  intro c hc
  by_cases hn : n = 0
  · simp [natDec, hn] at hc
    subst hc; rfl
  · simp only [natDec, if_neg hn] at hc
    exact natDigitsF_all_digits n n c hc

lemma natDec_ne_nil (n : Nat) : natDec n ≠ [] := by
  by_cases hn : n = 0
  · simp [natDec, hn]
  · obtain ⟨k, rfl⟩ : ∃ k, n = k + 1 := ⟨n - 1, by omega⟩
    simp [natDec, natDigits, natDigitsF]

lemma natDigitsF_foldl : ∀ fuel n : Nat, n ≤ fuel → ∀ acc : Nat,
    (natDigitsF fuel n).foldl (fun a c => a * 10 + (c.toNat - 48)) acc =
      acc * 10 ^ (natDigitsF fuel n).length + n := by
  intro fuel
  induction fuel with
  | zero =>
    intro n hn acc
    have : n = 0 := by omega
    subst this
    simp [natDigitsF]
  | succ f ih =>
    intro n hn acc
    by_cases h0 : n = 0
    · subst h0; simp [natDigitsF]
    · have hdiv : n / 10 ≤ f := by omega
      have hmod := Nat.mod_lt n (show 0 < 10 by decide)
      simp only [natDigitsF, if_neg h0, List.foldl_append, List.length_append,
        List.foldl_cons, List.foldl_nil, List.length_cons, List.length_nil]
      rw [ih (n / 10) hdiv acc, toNat_digitChar _ hmod]
      have h1 : n / 10 * 10 + n % 10 = n := by omega
      calc (acc * 10 ^ (natDigitsF f (n / 10)).length + n / 10) * 10 + n % 10
          = acc * (10 ^ (natDigitsF f (n / 10)).length * 10) + (n / 10 * 10 + n % 10) := by
            ring
        _ = acc * 10 ^ ((natDigitsF f (n / 10)).length + (0 + 1)) + n := by
            rw [h1]; ring

lemma parseUint10_natDec (n : Nat) (h : n < 2 ^ 64) : parseUint10 (natDec n) = some n := by
  have hall : (natDec n).all Char.isDigit = true := by
    rw [List.all_eq_true]
    exact natDec_all_digits n
  have hfold : (natDec n).foldl (fun a c => a * 10 + (c.toNat - 48)) 0 = n := by
    by_cases hn : n = 0
    · subst hn; rfl
    · simp only [natDec, if_neg hn, natDigits]
      have := natDigitsF_foldl n n le_rfl 0
      simpa using this
  rw [parseUint10, if_neg (natDec_ne_nil n)]
  simp only [hall, if_pos]
  rw [hfold, if_pos h]

lemma goSplit_no_sep (a : GoStr) (sep : Char) (h : ∀ c ∈ a, c ≠ sep) :
    goSplit a sep = [a] := by
  induction a with
  | nil => rfl
  | cons c rest ih =>
    have hc : c ≠ sep := h c (List.mem_cons_self c rest)
    rw [goSplit, if_neg hc, ih fun u hu => h u (List.mem_cons_of_mem c hu)]

lemma goSplit_append (a b : GoStr) (sep : Char) (h : ∀ c ∈ a, c ≠ sep) :
    goSplit (a ++ sep :: b) sep = a :: goSplit b sep := by
  induction a with
  | nil => simp [goSplit]
  | cons c rest ih =>
    have hc : c ≠ sep := h c (List.mem_cons_self c rest)
    rw [List.cons_append, goSplit, if_neg hc,
      ih fun u hu => h u (List.mem_cons_of_mem c hu)]

lemma chunk_no_space {d : Char} {x y : GoStr} (hd : d ≠ ' ')
    (hx : ∀ u ∈ x, u.isDigit = true) (hy : ∀ u ∈ y, u.isDigit = true) :
    ∀ c ∈ d :: (x ++ (',' :: y)), c ≠ ' ' := by
  intro c hc
  simp only [List.mem_cons, List.mem_append] at hc
  rcases hc with rfl | hc | rfl | hc
  · exact hd
  · exact isDigit_ne_space (hx c hc)
  · decide
  · exact isDigit_ne_space (hy c hc)

lemma lineStep_marker (m : ChangesMap) (s : LcState) (p : GoStr) :
    lineStep m s ('+' :: '+' :: '+' :: ' ' :: 'b' :: '/' :: p) =
      Except.ok (commitChanges m s,
        { file := p, lineNo := 0, hunkPos := -1, changes := some [] }) := by
  have h4 : 4 < ('+' :: '+' :: '+' :: ' ' :: 'b' :: '/' :: p).length := by
    simp
  have h6 : ¬ ('+' :: '+' :: '+' :: ' ' :: 'b' :: '/' :: p).length < 6 := by
    simp
  simp [lineStep, List.isPrefixOf, h4, h6, commitChanges]

lemma lineStep_ctx (m : ChangesMap) (s : LcState) (t : GoStr) :
    lineStep m s (' ' :: t) =
      Except.ok (m, { s with lineNo := s.lineNo + 1, hunkPos := s.hunkPos + 1 }) := by
  simp [lineStep, List.isPrefixOf]

lemma lineStep_del (m : ChangesMap) (s : LcState) (t : GoStr) :
    lineStep m s ('-' :: t) =
      Except.ok (m, { s with hunkPos := s.hunkPos + 1 }) := by
  simp [lineStep, List.isPrefixOf]

lemma lineStep_add (m : ChangesMap) (s : LcState) (t : GoStr)
    (hwf : (['+', '+', ' '].isPrefixOf t) = false) :
    lineStep m s ('+' :: t) =
      Except.ok (m, { s with
        lineNo := s.lineNo + 1
        hunkPos := s.hunkPos + 1
        changes := some (s.changes.getD [] ++
          [{ lineNo := s.lineNo + 1, hunkPos := s.hunkPos + 1 }]) }) := by
  simp [lineStep, List.isPrefixOf, hwf]

lemma lineStep_header (m : ChangesMap) (s : LcState) (h : Hunk)
    (hlt : h.newStart < 2 ^ 63) :
    lineStep m s (renderHeader h) =
      Except.ok (m, { s with lineNo := (h.newStart : Int) - 1, hunkPos := s.hunkPos + 1 }) := by
  have hsplit : goSplit (renderHeader h) ' ' =
      [['@', '@'],
       '-' :: (natDec h.oldStart ++ (',' :: natDec h.oldCount)),
       '+' :: (natDec h.newStart ++ (',' :: natDec h.newCount)),
       ['@', '@']] := by
    rw [renderHeader]
    rw [goSplit_append ['@', '@'] _ ' ' (by decide)]
    rw [goSplit_append _ _ ' '
      (chunk_no_space (by decide) (natDec_all_digits _) (natDec_all_digits _))]
    rw [goSplit_append _ _ ' '
      (chunk_no_space (by decide) (natDec_all_digits _) (natDec_all_digits _))]
    rw [goSplit_no_sep ['@', '@'] ' ' (by decide)]
  have hsplitB : goSplit ('+' :: (natDec h.newStart ++ (',' :: natDec h.newCount))) ',' =
      ('+' :: natDec h.newStart) :: goSplit (natDec h.newCount) ',' := by
    rw [← List.cons_append]
    exact goSplit_append _ _ ',' (by
      intro u hu
      rcases List.mem_cons.1 hu with rfl | hu
      · decide
      · exact isDigit_ne_comma (natDec_all_digits _ u hu))
  have hpre1 : (['+', '+', '+', ' '].isPrefixOf (renderHeader h)) = false := by
    rw [renderHeader]
    simp [List.isPrefixOf]
  have hpre2 : (['@', '@', ' '].isPrefixOf (renderHeader h)) = true := by
    rw [renderHeader]
    simp [List.isPrefixOf]
  have hparse : parseUint10 (('+' :: natDec h.newStart).drop 1) = some h.newStart := by
    simp only [List.drop_succ_cons, List.drop_zero]
    exact parseUint10_natDec _ (lt_trans hlt (by norm_num))
  rw [lineStep]
  simp only [hpre1, Bool.false_eq_true, false_and, if_false, hpre2, if_true, hsplit]
  simp only [List.get?, hsplitB, hparse]
  have hint : int64ofUint64 h.newStart = (h.newStart : Int) := by
    rw [int64ofUint64, if_pos hlt]
  simp [hint]

lemma linesChangedLoop_append (xs ys : List GoStr) :
    ∀ (m : ChangesMap) (s : LcState),
      linesChangedLoop m s (xs ++ ys) =
        match linesChangedLoop m s xs with
        | Except.error e => Except.error e
        | Except.ok (m1, s1) => linesChangedLoop m1 s1 ys := by
  induction xs with
  | nil => intro m s; rfl
  | cons l ls ih =>
    intro m s
    show linesChangedLoop m s (l :: (ls ++ ys)) = _
    simp only [linesChangedLoop]
    cases hstep : lineStep m s l with
    | error e => rfl
    | ok r =>
      obtain ⟨m1, s1⟩ := r
      exact ih m1 s1

lemma loop_hunkLines (ls : List HunkLine) :
    ∀ (m : ChangesMap) (f : GoStr) (ln hp : Int) (cs : List Pos),
      (∀ l ∈ ls, wfLine l = true) →
      linesChangedLoop m ⟨f, ln, hp, some cs⟩ (ls.map renderHunkLine) =
        Except.ok (m, ⟨f, (hunkLinesPos ln hp ls).2.1, (hunkLinesPos ln hp ls).2.2,
          some (cs ++ (hunkLinesPos ln hp ls).1)⟩) := by
  induction ls with
  | nil =>
    intro m f ln hp cs _
    simp [linesChangedLoop, hunkLinesPos]
  | cons l rest ih =>
    intro m f ln hp cs hwf
    have hrest : ∀ u ∈ rest, wfLine u = true := fun u hu => hwf u (List.mem_cons_of_mem l hu)
    cases l with
    | ctx t =>
      simp only [List.map_cons, renderHunkLine, linesChangedLoop, lineStep_ctx]
      rw [ih m f (ln + 1) (hp + 1) cs hrest]
      simp [hunkLinesPos]
    | del t =>
      simp only [List.map_cons, renderHunkLine, linesChangedLoop, lineStep_del]
      rw [ih m f ln (hp + 1) cs hrest]
      simp [hunkLinesPos]
    | add t =>
      have hadd : (['+', '+', ' '].isPrefixOf t) = false := by
        have := hwf (HunkLine.add t) (List.mem_cons_self _ rest)
        simpa [wfLine] using this
      simp only [List.map_cons, renderHunkLine, linesChangedLoop, lineStep_add m _ t hadd,
        Option.getD_some]
      have hrw := ih m f (ln + 1) (hp + 1)
        (cs ++ [{ lineNo := ln + 1, hunkPos := hp + 1 }]) hrest
      rw [hrw]
      simp [hunkLinesPos]

lemma loop_hunks (hs : List Hunk) :
    ∀ (m : ChangesMap) (f : GoStr) (ln hp : Int) (cs : List Pos),
      (∀ h ∈ hs, wfHunk h = true) →
      linesChangedLoop m ⟨f, ln, hp, some cs⟩ ((hs.map renderHunk).flatten) =
        Except.ok (m, ⟨f, (hunksPos ln hp hs).2.1, (hunksPos ln hp hs).2.2,
          some (cs ++ (hunksPos ln hp hs).1)⟩) := by
  induction hs with
  | nil =>
    intro m f ln hp cs _
    simp [linesChangedLoop, hunksPos]
  | cons h rest ih =>
    intro m f ln hp cs hwf
    have hh := hwf h (List.mem_cons_self _ rest)
    rw [wfHunk, Bool.and_eq_true, decide_eq_true_eq, List.all_eq_true] at hh
    obtain ⟨hlt, hall⟩ := hh
    have hrest : ∀ u ∈ rest, wfHunk u = true := fun u hu => hwf u (List.mem_cons_of_mem h hu)
    simp only [List.map_cons, List.flatten_cons, renderHunk, List.cons_append,
      linesChangedLoop, lineStep_header m _ h hlt]
    rw [List.append_eq, linesChangedLoop_append]
    rw [loop_hunkLines h.lines m f ((h.newStart : Int) - 1) (hp + 1) cs hall]
    show linesChangedLoop m
      ⟨f, (hunkLinesPos ((h.newStart : Int) - 1) (hp + 1) h.lines).2.1,
        (hunkLinesPos ((h.newStart : Int) - 1) (hp + 1) h.lines).2.2,
        some (cs ++ (hunkLinesPos ((h.newStart : Int) - 1) (hp + 1) h.lines).1)⟩
      ((rest.map renderHunk).flatten) = _
    have hrw := ih m f (hunkLinesPos ((h.newStart : Int) - 1) (hp + 1) h.lines).2.1
      (hunkLinesPos ((h.newStart : Int) - 1) (hp + 1) h.lines).2.2
      (cs ++ (hunkLinesPos ((h.newStart : Int) - 1) (hp + 1) h.lines).1) hrest
    rw [hrw]
    simp [hunksPos, List.append_assoc]

lemma loop_cons_ok {l : GoStr} {ls : List GoStr} {m m1 : ChangesMap} {s s1 : LcState}
    (h : lineStep m s l = Except.ok (m1, s1)) :
    linesChangedLoop m s (l :: ls) = linesChangedLoop m1 s1 ls := by
  simp only [linesChangedLoop, h]

lemma loop_append_ok {xs ys : List GoStr} {m m1 : ChangesMap} {s s1 : LcState}
    (h : linesChangedLoop m s xs = Except.ok (m1, s1)) :
    linesChangedLoop m s (xs ++ ys) = linesChangedLoop m1 s1 ys := by
  rw [linesChangedLoop_append, h]

lemma linesChanged_of_loop {lines : List GoStr} {m : ChangesMap} {s : LcState}
    (h : linesChangedLoop [] { file := [], lineNo := 0, hunkPos := 0, changes := none } lines =
      Except.ok (m, s)) :
    linesChanged lines = Except.ok (mapSet m s.file (s.changes.getD [])) := by
  rw [linesChanged, h]

lemma loop_file (f : FileDiff) (m : ChangesMap) (s : LcState) (hwf : wfFile f = true) :
    linesChangedLoop m s (renderFile f) =
      Except.ok (commitChanges m s,
        ⟨f.path, (hunksPos 0 (-1) f.hunks).2.1, (hunksPos 0 (-1) f.hunks).2.2,
          some (filePositions f)⟩) := by
  have hall : ∀ h ∈ f.hunks, wfHunk h = true := List.all_eq_true.1 hwf
  rw [renderFile]
  rw [loop_cons_ok (lineStep_del m s ('-' :: '-' :: ' ' :: 'a' :: '/' :: f.path))]
  rw [loop_cons_ok (lineStep_marker m { s with hunkPos := s.hunkPos + 1 } f.path)]
  rw [loop_hunks f.hunks _ f.path 0 (-1) [] hall]
  have hcommit : commitChanges m { s with hunkPos := s.hunkPos + 1 } = commitChanges m s := by
    simp [commitChanges]
  rw [hcommit]
  simp [filePositions]

lemma loop_files (fs : List FileDiff) :
    ∀ (m : ChangesMap) (p : GoStr) (cs : List Pos) (ln hp : Int),
      (∀ f ∈ fs, wfFile f = true) →
      ∃ ln2 hp2 : Int,
        linesChangedLoop m ⟨p, ln, hp, some cs⟩ ((fs.map renderFile).flatten) =
          Except.ok ((filesFold m p cs fs).1,
            ⟨(filesFold m p cs fs).2.1, ln2, hp2, some (filesFold m p cs fs).2.2⟩) := by
  induction fs with
  | nil =>
    intro m p cs ln hp _
    exact ⟨ln, hp, rfl⟩
  | cons f fs ih =>
    intro m p cs ln hp hwf
    have hf := hwf f (List.mem_cons_self _ fs)
    have hrest : ∀ u ∈ fs, wfFile u = true := fun u hu => hwf u (List.mem_cons_of_mem f hu)
    obtain ⟨ln2, hp2, hloop⟩ := ih (mapSet m p cs) f.path (filePositions f)
      (hunksPos 0 (-1) f.hunks).2.1 (hunksPos 0 (-1) f.hunks).2.2 hrest
    refine ⟨ln2, hp2, ?_⟩
    rw [List.map_cons, List.flatten_cons]
    rw [loop_append_ok (loop_file f m ⟨p, ln, hp, some cs⟩ hf)]
    have hcommit : commitChanges m ⟨p, ln, hp, some cs⟩ = mapSet m p cs := rfl
    rw [hcommit, hloop]
    rfl

lemma linesChanged_renderDiff (d : SynthDiff) (hall : ∀ f ∈ d.files, wfFile f = true) :
    linesChanged (renderDiff d) = Except.ok (goMap d) := by
  rcases hd : d.files with _ | ⟨f, fs⟩
  · have hg : goMap d = [([], [])] := by simp only [goMap, hd]
    rw [renderDiff, hd, hg]
    rfl
  · have hf : wfFile f = true := hall f (by rw [hd]; exact List.mem_cons_self _ fs)
    have hrest : ∀ u ∈ fs, wfFile u = true := fun u hu =>
      hall u (by rw [hd]; exact List.mem_cons_of_mem f hu)
    have hg : goMap d =
        mapSet (filesFold [] f.path (filePositions f) fs).1
          (filesFold [] f.path (filePositions f) fs).2.1
          (filesFold [] f.path (filePositions f) fs).2.2 := by
      simp only [goMap, hd]
    obtain ⟨ln2, hp2, hloop⟩ := loop_files fs [] f.path (filePositions f)
      (hunksPos 0 (-1) f.hunks).2.1 (hunksPos 0 (-1) f.hunks).2.2 hrest
    have hrun : linesChangedLoop [] { file := [], lineNo := 0, hunkPos := 0, changes := none }
        (renderDiff d) =
        Except.ok ((filesFold [] f.path (filePositions f) fs).1,
          ⟨(filesFold [] f.path (filePositions f) fs).2.1, ln2, hp2,
            some (filesFold [] f.path (filePositions f) fs).2.2⟩) := by
      rw [renderDiff, hd, List.map_cons, List.flatten_cons]
      rw [loop_append_ok (loop_file f []
        { file := [], lineNo := 0, hunkPos := 0, changes := none } hf)]
      exact hloop
    rw [linesChanged_of_loop hrun, hg]
    rfl

lemma mapGet_nil (k : GoStr) : mapGet [] k = none := rfl

lemma mapSet_notmem (m : ChangesMap) (k : GoStr) (v : List Pos)
    (h : mapGet m k = none) : mapSet m k v = m ++ [(k, v)] := by
  induction m with
  | nil => rfl
  | cons e rest ih =>
    obtain ⟨k1, v1⟩ := e
    rw [mapGet] at h
    by_cases hk : k1 = k
    · rw [if_pos hk] at h
      exact absurd h (by simp)
    · rw [if_neg hk] at h
      rw [mapSet, if_neg hk, ih h, List.cons_append]

lemma mapGet_mapSet_ne (m : ChangesMap) (k k2 : GoStr) (v : List Pos)
    (h : k2 ≠ k) : mapGet (mapSet m k v) k2 = mapGet m k2 := by
  induction m with
  | nil =>
    simp only [mapSet, mapGet]
    rw [if_neg (fun he => h he.symm)]
  | cons e rest ih =>
    obtain ⟨k1, v1⟩ := e
    by_cases hk : k1 = k
    · subst hk
      rw [mapSet, if_pos rfl, mapGet, mapGet, if_neg (fun he => h he.symm),
        if_neg (fun he => h he.symm)]
    · rw [mapSet, if_neg hk, mapGet, mapGet]
      by_cases h2 : k1 = k2
      · rw [if_pos h2, if_pos h2]
      · rw [if_neg h2, if_neg h2, ih]

lemma filesFold_spec (fs : List FileDiff) :
    ∀ (m : ChangesMap) (p : GoStr) (cs : List Pos),
      mapGet m p = none → (∀ f ∈ fs, mapGet m f.path = none) →
      (p :: fs.map FileDiff.path).Nodup →
      mapSet (filesFold m p cs fs).1 (filesFold m p cs fs).2.1 (filesFold m p cs fs).2.2 =
        m ++ (p, cs) :: fs.map fun f => (f.path, filePositions f) := by
  induction fs with
  | nil =>
    intro m p cs hp _ _
    exact mapSet_notmem m p cs hp
  | cons f fs ih =>
    intro m p cs hp hfs hnd
    rw [List.map_cons, List.nodup_cons, List.mem_cons] at hnd
    obtain ⟨hpni, hnd2⟩ := hnd
    have hpf : p ≠ f.path := fun he => hpni (Or.inl he)
    have h1 : mapGet (mapSet m p cs) f.path = none := by
      rw [mapGet_mapSet_ne m p f.path cs (fun he => hpf he.symm)]
      exact hfs f (List.mem_cons_self _ fs)
    have h2 : ∀ g ∈ fs, mapGet (mapSet m p cs) g.path = none := by
      intro g hg
      have hgp : g.path ≠ p := by
        intro he
        exact hpni (Or.inr (he ▸ List.mem_map_of_mem FileDiff.path hg))
      rw [mapGet_mapSet_ne m p g.path cs hgp]
      exact hfs g (List.mem_cons_of_mem f hg)
    have := ih (mapSet m p cs) f.path (filePositions f) h1 h2 hnd2
    rw [filesFold, this, mapSet_notmem m p cs hp]
    simp

lemma goMap_eq (d : SynthDiff) (hnd : (d.files.map FileDiff.path).Nodup)
    (hne : d.files ≠ []) :
    goMap d = d.files.map fun f => (f.path, filePositions f) := by
  rcases hd : d.files with _ | ⟨f, fs⟩
  · exact absurd hd hne
  · rw [hd] at hnd
    have hspec := filesFold_spec fs [] f.path (filePositions f) rfl (fun _ _ => rfl)
      (by rw [List.map_cons] at hnd; exact hnd)
    simp only [goMap, hd]
    rw [hspec]
    rfl

lemma hunkLinesPos_map_lineNo (ls : List HunkLine) :
    ∀ (ns c : Nat) (hp : Int),
      ((hunkLinesPos ((ns : Int) + (c : Int) - 1) hp ls).1).map Pos.lineNo =
        specHunkAddedAux ns ls c := by
  induction ls with
  | nil => intro ns c hp; rfl
  | cons l rest ih =>
    intro ns c hp
    cases l with
    | ctx t =>
      have harg : (ns : Int) + (c : Int) - 1 + 1 = (ns : Int) + ((c + 1 : Nat) : Int) - 1 := by
        push_cast
        ring
      simp only [hunkLinesPos, specHunkAddedAux]
      rw [harg]
      exact ih ns (c + 1) (hp + 1)
    | del t =>
      simp only [hunkLinesPos, specHunkAddedAux]
      exact ih ns c (hp + 1)
    | add t =>
      simp only [hunkLinesPos, specHunkAddedAux, List.map_cons]
      congr 1
      · omega
      · rw [show (ns : Int) + (c : Int) - 1 + 1 = (ns : Int) + ((c + 1 : Nat) : Int) - 1 by
          push_cast; ring]
        exact ih ns (c + 1) (hp + 1)

lemma hunksPos_map_lineNo (hs : List Hunk) :
    ∀ (ln hp : Int),
      ((hunksPos ln hp hs).1).map Pos.lineNo =
        (hs.map fun h => specHunkAddedAux h.newStart h.lines 0).flatten := by
  induction hs with
  | nil => intro ln hp; rfl
  | cons h rest ih =>
    intro ln hp
    simp only [hunksPos, List.map_cons, List.flatten_cons, List.map_append]
    have harg : ((h.newStart : Int) - 1) = (h.newStart : Int) + ((0 : Nat) : Int) - 1 := by
      push_cast
      ring
    rw [harg, hunkLinesPos_map_lineNo h.lines h.newStart 0, ih]

lemma filePositions_map_lineNo (f : FileDiff) :
    (filePositions f).map Pos.lineNo = specFileAdded f := by
  rw [filePositions, specFileAdded]
  exact hunksPos_map_lineNo f.hunks 0 (-1)

lemma recordedPairs_map (fs : List FileDiff) :
    recordedPairs (fs.map fun f => (f.path, filePositions f)) =
      (fs.map fun f => (specFileAdded f).map fun n => (f.path, n)).flatten := by
  rw [recordedPairs, List.map_map]
  refine congrArg List.flatten ?_
  refine List.map_congr_left ?_
  intro f _
  show (filePositions f).map (fun p => (f.path, p.lineNo)) = _
  rw [← filePositions_map_lineNo f, List.map_map]
  rfl

/-- C1: for every well-formed synthetic unified diff, the parse succeeds and
the mapping records, over all files introduced by "+++ " markers, exactly the
added (file, line) pairs of the diff: each addition-marked line of a hunk at
line number newStart plus the count of preceding context and addition lines
of that hunk, and no other positions. -/
theorem C1_diff_roundtrip (d : SynthDiff) (hwf : WfDiff d) :
    ∃ m : ChangesMap, linesChanged (renderDiff d) = Except.ok m ∧
      recordedPairs m = specAdded d := by
  obtain ⟨hnd, hall⟩ := hwf
  have hall2 : ∀ f ∈ d.files, wfFile f = true := List.all_eq_true.1 hall
  refine ⟨goMap d, linesChanged_renderDiff d hall2, ?_⟩
  rcases hd : d.files with _ | ⟨f, fs⟩
  · have hg : goMap d = [([], [])] := by simp only [goMap, hd]
    rw [hg, specAdded, hd]
    rfl
  · rw [goMap_eq d hnd (by rw [hd]; simp), recordedPairs_map]
    rfl

/-- Witness for C1 on a concrete two-file diff. -/
theorem C1_diff_roundtrip_witness :
    WfDiff c1WitnessDiff ∧
      ∃ m : ChangesMap, linesChanged (renderDiff c1WitnessDiff) = Except.ok m ∧
        recordedPairs m = specAdded c1WitnessDiff :=
  ⟨by decide, C1_diff_roundtrip c1WitnessDiff (by decide)⟩

lemma hunkLinesPos_no_add (ls : List HunkLine) (h : ∀ l ∈ ls, isAddLine l = false) :
    ∀ ln hp : Int, (hunkLinesPos ln hp ls).1 = [] := by
  induction ls with
  | nil => intro ln hp; rfl
  | cons l rest ih =>
    intro ln hp
    have hrest : ∀ u ∈ rest, isAddLine u = false := fun u hu =>
      h u (List.mem_cons_of_mem l hu)
    cases l with
    | ctx t => simp only [hunkLinesPos]; exact ih hrest _ _
    | del t => simp only [hunkLinesPos]; exact ih hrest _ _
    | add t =>
      have := h (HunkLine.add t) (List.mem_cons_self _ rest)
      exact absurd this (by simp [isAddLine])

lemma hunksPos_no_add (hs : List Hunk)
    (h : ∀ hk ∈ hs, ∀ l ∈ hk.lines, isAddLine l = false) :
    ∀ ln hp : Int, (hunksPos ln hp hs).1 = [] := by
  induction hs with
  | nil => intro ln hp; rfl
  | cons hk rest ih =>
    intro ln hp
    have hrest : ∀ u ∈ rest, ∀ l ∈ u.lines, isAddLine l = false := fun u hu =>
      h u (List.mem_cons_of_mem hk hu)
    simp only [hunksPos]
    rw [hunkLinesPos_no_add hk.lines (h hk (List.mem_cons_self _ rest)),
      ih hrest]
    rfl

lemma filePositions_no_add (f : FileDiff)
    (h : ∀ hk ∈ f.hunks, ∀ l ∈ hk.lines, isAddLine l = false) :
    filePositions f = [] := by
  rw [filePositions, hunksPos_no_add f.hunks h]

lemma mapGet_files_mem (fs : List FileDiff) :
    ∀ f ∈ fs, (fs.map FileDiff.path).Nodup →
      mapGet (fs.map fun g => (g.path, filePositions g)) f.path = some (filePositions f) := by
  induction fs with
  | nil => intro f hf; exact absurd hf (List.not_mem_nil f)
  | cons g rest ih =>
    intro f hf hnd
    rw [List.map_cons, List.nodup_cons] at hnd
    obtain ⟨hgni, hnd2⟩ := hnd
    rcases List.mem_cons.1 hf with rfl | hf2
    · rw [List.map_cons, mapGet, if_pos rfl]
    · have hne : g.path ≠ f.path := fun he =>
        hgni (he ▸ List.mem_map_of_mem FileDiff.path hf2)
      rw [List.map_cons, mapGet, if_neg hne]
      exact ih f hf2 hnd2

lemma mapGet_files_not_mem (fs : List FileDiff) (q : GoStr)
    (hq : q ∉ fs.map FileDiff.path) :
    mapGet (fs.map fun g => (g.path, filePositions g)) q = none := by
  induction fs with
  | nil => rfl
  | cons g rest ih =>
    rw [List.map_cons] at hq
    have h1 : g.path ≠ q := fun he => hq (he ▸ List.mem_cons_self _ _)
    rw [List.map_cons, mapGet, if_neg h1]
    exact ih fun h2 => hq (List.mem_cons_of_mem _ h2)

/-- C8: a file marked by "+++ " whose section has no addition-marked lines
(deletion-only hunks or zero hunk lines) is present in the mapping with an
empty position sequence, while a file never mentioned in the diff is absent
from the mapping. -/
theorem C8_touched_file_present (d : SynthDiff) (hwf : WfDiff d) (f : FileDiff)
    (hf : f ∈ d.files)
    (hno : ∀ hk ∈ f.hunks, ∀ l ∈ hk.lines, isAddLine l = false) :
    ∃ m : ChangesMap, linesChanged (renderDiff d) = Except.ok m ∧
      mapGet m f.path = some [] ∧
      ∀ q : GoStr, q ∉ d.files.map FileDiff.path → mapGet m q = none := by
  obtain ⟨hnd, hall⟩ := hwf
  have hall2 : ∀ g ∈ d.files, wfFile g = true := List.all_eq_true.1 hall
  have hne : d.files ≠ [] := by
    intro h
    rw [h] at hf
    exact absurd hf (List.not_mem_nil f)
  refine ⟨goMap d, linesChanged_renderDiff d hall2, ?_, ?_⟩
  · rw [goMap_eq d hnd hne, mapGet_files_mem d.files f hf hnd, filePositions_no_add f hno]
  · intro q hq
    rw [goMap_eq d hnd hne]
    exact mapGet_files_not_mem d.files q hq

/-- Witness for C8 on a deletion-only file next to an empty-hunk file. -/
theorem C8_touched_file_present_witness :
    WfDiff c8WitnessDiff ∧
      ∃ m : ChangesMap, linesChanged (renderDiff c8WitnessDiff) = Except.ok m ∧
        mapGet m c8WitnessFile.path = some [] ∧
        ∀ q : GoStr, q ∉ c8WitnessDiff.files.map FileDiff.path → mapGet m q = none :=
  ⟨by decide, C8_touched_file_present c8WitnessDiff (by decide) c8WitnessFile
    (by decide) (by decide)⟩

lemma goodList_nil : goodList [] := by
  constructor
  · simp
  · simp

lemma goodList_append (cs : List Pos) (p : Pos) (hgood : goodList cs)
    (hlt : ∀ q ∈ cs, q.hunkPos < p.hunkPos) (hp : 0 ≤ p.hunkPos) :
    goodList (cs ++ [p]) := by
  obtain ⟨hpw, hnn⟩ := hgood
  constructor
  · rw [List.map_append, List.pairwise_append]
    refine ⟨hpw, by simp, ?_⟩
    intro a ha b hb
    rw [List.map_singleton, List.mem_singleton] at hb
    subst hb
    obtain ⟨q, hq, rfl⟩ := List.mem_map.1 ha
    exact hlt q hq
  · intro q hq
    rcases List.mem_append.1 hq with hq | hq
    · exact hnn q hq
    · rw [List.mem_singleton] at hq
      subst hq
      exact hp

lemma mapSet_mem (m : ChangesMap) (k : GoStr) (v : List Pos) :
    ∀ e ∈ mapSet m k v, e ∈ m ∨ e = (k, v) := by
  induction m with
  | nil =>
    intro e he
    rw [mapSet] at he
    exact Or.inr (List.mem_singleton.1 he)
  | cons e1 rest ih =>
    obtain ⟨k1, v1⟩ := e1
    intro e he
    rw [mapSet] at he
    by_cases hk : k1 = k
    · rw [if_pos hk] at he
      rcases List.mem_cons.1 he with rfl | he2
      · exact Or.inr rfl
      · exact Or.inl (List.mem_cons_of_mem _ he2)
    · rw [if_neg hk] at he
      rcases List.mem_cons.1 he with rfl | he2
      · exact Or.inl (List.mem_cons_self _ _)
      · rcases ih e he2 with h2 | h2
        · exact Or.inl (List.mem_cons_of_mem _ h2)
        · exact Or.inr h2

lemma mapInv_mapSet (m : ChangesMap) (k : GoStr) (v : List Pos)
    (hm : mapInv m) (hv : goodList v) : mapInv (mapSet m k v) := by
  intro e he
  rcases mapSet_mem m k v e he with h2 | h2
  · exact hm e h2
  · rw [h2]
    exact hv

lemma commitChanges_inv (m : ChangesMap) (s : LcState) (hm : mapInv m)
    (hs : stateInv s) : mapInv (commitChanges m s) := by
  rw [commitChanges]
  cases hc : s.changes with
  | none => exact hm
  | some cs => exact mapInv_mapSet m s.file cs hm (hs.2 cs hc).1

lemma lineStep_cases (m : ChangesMap) (s : LcState) (line : GoStr)
    (m1 : ChangesMap) (s1 : LcState) (h : lineStep m s line = Except.ok (m1, s1)) :
    (m1 = commitChanges m s ∧ s1.hunkPos = -1 ∧ s1.changes = some []) ∨
    (m1 = m ∧ s1.hunkPos = s.hunkPos + 1 ∧
      (s1.changes = s.changes ∨
        s1.changes = some (s.changes.getD [] ++
          [{ lineNo := s.lineNo + 1, hunkPos := s.hunkPos + 1 }]))) := by
  rw [lineStep] at h
  split at h
  · split at h
    · simp at h
    · rw [Except.ok.injEq, Prod.mk.injEq] at h
      obtain ⟨h1, h2⟩ := h
      subst h1
      subst h2
      exact Or.inl ⟨rfl, rfl, rfl⟩
  · split at h
    · split at h
      · simp at h
      · split at h
        · simp at h
        · split at h
          · simp at h
          · split at h
            · simp at h
            · rw [Except.ok.injEq, Prod.mk.injEq] at h
              obtain ⟨h1, h2⟩ := h
              subst h1
              subst h2
              exact Or.inr ⟨rfl, rfl, Or.inl rfl⟩
    · split at h
      · rw [Except.ok.injEq, Prod.mk.injEq] at h
        obtain ⟨h1, h2⟩ := h
        subst h1
        subst h2
        exact Or.inr ⟨rfl, rfl, Or.inl rfl⟩
      · split at h
        · rw [Except.ok.injEq, Prod.mk.injEq] at h
          obtain ⟨h1, h2⟩ := h
          subst h1
          subst h2
          exact Or.inr ⟨rfl, rfl, Or.inr rfl⟩
        · rw [Except.ok.injEq, Prod.mk.injEq] at h
          obtain ⟨h1, h2⟩ := h
          subst h1
          subst h2
          exact Or.inr ⟨rfl, rfl, Or.inl rfl⟩

lemma lineStep_inv (m : ChangesMap) (s : LcState) (line : GoStr)
    (m1 : ChangesMap) (s1 : LcState) (hm : mapInv m) (hs : stateInv s)
    (h : lineStep m s line = Except.ok (m1, s1)) : mapInv m1 ∧ stateInv s1 := by
  obtain ⟨hhp, hch⟩ := hs
  rcases lineStep_cases m s line m1 s1 h with ⟨hm1, hhp1, hch1⟩ | ⟨hm1, hhp1, hch1⟩
  · subst hm1
    refine ⟨commitChanges_inv m s hm ⟨hhp, hch⟩, ?_, ?_⟩
    · omega
    · intro cs hc
      rw [hch1, Option.some_inj] at hc
      subst hc
      exact ⟨goodList_nil, by simp⟩
  · subst hm1
    refine ⟨hm, ?_, ?_⟩
    · omega
    · intro cs hc
      rw [hhp1]
      rcases hch1 with hsame | happ
      · rw [hsame] at hc
        obtain ⟨hg, hb⟩ := hch cs hc
        refine ⟨hg, fun p hp => ?_⟩
        have := hb p hp
        omega
      · rw [happ, Option.some_inj] at hc
        subst hc
        cases hc0 : s.changes with
        | none =>
          simp only [hc0, Option.getD_none, List.nil_append]
          refine ⟨⟨by simp, ?_⟩, ?_⟩
          · intro p hp
            rw [List.mem_singleton] at hp
            subst hp
            show (0 : Int) ≤ s.hunkPos + 1
            omega
          · intro p hp
            rw [List.mem_singleton] at hp
            subst hp
            show s.hunkPos + 1 ≤ s.hunkPos + 1
            exact le_rfl
        | some cs0 =>
          simp only [hc0, Option.getD_some]
          obtain ⟨hg, hb⟩ := hch cs0 hc0
          refine ⟨goodList_append cs0 _ hg ?_ ?_, ?_⟩
          · intro q hq
            have := hb q hq
            show q.hunkPos < s.hunkPos + 1
            omega
          · show (0 : Int) ≤ s.hunkPos + 1
            omega
          · intro p hp
            rcases List.mem_append.1 hp with hp | hp
            · have := hb p hp
              omega
            · rw [List.mem_singleton] at hp
              subst hp
              show s.hunkPos + 1 ≤ s.hunkPos + 1
              exact le_rfl

lemma loop_inv (lines : List GoStr) :
    ∀ (m : ChangesMap) (s : LcState) (m1 : ChangesMap) (s1 : LcState),
      mapInv m → stateInv s →
      linesChangedLoop m s lines = Except.ok (m1, s1) → mapInv m1 ∧ stateInv s1 := by
  induction lines with
  | nil =>
    intro m s m1 s1 hm hs h
    rw [linesChangedLoop, Except.ok.injEq, Prod.mk.injEq] at h
    obtain ⟨hm1, hs1⟩ := h
    subst hm1
    subst hs1
    exact ⟨hm, hs⟩
  | cons l ls ih =>
    intro m s m1 s1 hm hs h
    rw [linesChangedLoop] at h
    cases hstep : lineStep m s l with
    | error e => rw [hstep] at h; exact absurd h (by simp)
    | ok r =>
      obtain ⟨m2, s2⟩ := r
      rw [hstep] at h
      obtain ⟨hm2, hs2⟩ := lineStep_inv m s l m2 s2 hm hs hstep
      exact ih m2 s2 m1 s1 hm2 hs2 h

/-- C2: on every input on which the parse succeeds, the hunkPos values of
each file's recorded position sequence are strictly increasing in recording
order; the per-file counter restarts at -1 at each "+++ " marker, so every
recorded hunkPos is nonnegative. -/
theorem C2_hunkPos_strict_mono (lines : List GoStr) (m : ChangesMap)
    (h : linesChanged lines = Except.ok m) :
    ∀ (f : GoStr) (ps : List Pos), (f, ps) ∈ m →
      (ps.map Pos.hunkPos).Pairwise (· < ·) ∧ ∀ p ∈ ps, 0 ≤ p.hunkPos := by
  rw [linesChanged] at h
  cases hrun : linesChangedLoop []
      { file := [], lineNo := 0, hunkPos := 0, changes := none } lines with
  | error e =>
    rw [hrun] at h
    exact absurd h (by simp)
  | ok r =>
    obtain ⟨m2, s2⟩ := r
    rw [hrun, Except.ok.injEq] at h
    subst h
    have hminit : mapInv [] := fun e he => absurd he (List.not_mem_nil e)
    have hsinit : stateInv { file := [], lineNo := 0, hunkPos := 0, changes := none } := by
      refine ⟨by norm_num, ?_⟩
      intro cs hc
      exact absurd hc (by simp)
    obtain ⟨hm2, hs2⟩ := loop_inv lines [] _ m2 s2 hminit hsinit hrun
    have hgood : goodList (s2.changes.getD []) := by
      cases hc : s2.changes with
      | none => simpa using goodList_nil
      | some cs => simpa using (hs2.2 cs hc).1
    intro f ps hmem
    exact mapInv_mapSet m2 s2.file _ hm2 hgood (f, ps) hmem

/-- Witness for C2 on a concrete two-file diff. -/
theorem C2_hunkPos_strict_mono_witness :
    (([{ lineNo := 3, hunkPos := 1 }, { lineNo := 5, hunkPos := 3 }] :
        List Pos).map Pos.hunkPos).Pairwise (· < ·) ∧
      ∀ p ∈ ([{ lineNo := 3, hunkPos := 1 }, { lineNo := 5, hunkPos := 3 }] : List Pos),
        0 ≤ p.hunkPos :=
  C2_hunkPos_strict_mono c2WitnessLines c2WitnessMap (by rfl) ("a.go".data)
    [{ lineNo := 3, hunkPos := 1 }, { lineNo := 5, hunkPos := 3 }] (by decide)

/-- C7 (code bug): a hunk header whose new-range start is non-numeric does
not return a parse error to the caller: linesChanged aborts through the
explicit panic(err) at linter.go:157 (modelled GoPanic.parseUint), so the
failure never reaches the run as an error value, although no header is
skipped and no partial mapping is returned either. -/
theorem C7_malformed_header_panics :
    linesChanged ["+++ b/f.go".data, "@@ -2,3 +abc,4 @@".data] =
      Except.error (GoPanic.parseUint "abc".data) := rfl

/-- C10: linesChanged is not total over arbitrary text: the line "+++ b"
(length 5) panics on the slice line[6:], a "@@ " line splitting into fewer
than three space-separated fields panics indexing chdr[2], and a
non-numeric new-range start reaches the explicit panic(err). -/
theorem C10_linesChanged_panics :
    linesChanged ["+++ b".data] = Except.error GoPanic.sliceBounds ∧
    linesChanged ["@@ x".data] = Except.error GoPanic.indexBounds ∧
    linesChanged ["@@ -1 +x,4 @@".data] = Except.error (GoPanic.parseUint "x".data) :=
  ⟨rfl, rfl, rfl⟩

/-- C4: with Go code present, zero filtered findings but at least one
analyzer warning, the submitted review's event is REQUEST_CHANGES when the
request-changes flag is set and COMMENT otherwise, and never APPROVE. -/
theorem C4_warnings_force_nonpassing (sha : String) (inp : RunInput)
    (hgo : inp.goCode = true) (hiss : inp.issues = []) (hw : 0 < inp.warnings) :
    ∃ r : ReviewRequest, Run_review sha inp = some r ∧
      r.event = some (if inp.requestChanges then "REQUEST_CHANGES" else "COMMENT") ∧
      r.event ≠ some "APPROVE" := by
  have hwn : ¬ inp.warnings ≤ 0 := by omega
  refine ⟨{ commitID := sha, body := none,
            event := some (if inp.requestChanges then "REQUEST_CHANGES" else "COMMENT"),
            comments := [] }, ?_, rfl, ?_⟩
  · rw [Run_review, hgo, hiss]
    simp [Run_comments, hwn]
  · cases hrc : inp.requestChanges <;> simp

/-- Witness for C4: zero issues, one warning, auto-approve on and
request-changes off still yield a COMMENT review, not APPROVE. -/
theorem C4_warnings_force_nonpassing_witness :
    c4WitnessInput.goCode = true ∧ c4WitnessInput.issues = [] ∧ 0 < c4WitnessInput.warnings ∧
      ∃ r : ReviewRequest, Run_review "sha1" c4WitnessInput = some r ∧
        r.event = some (if c4WitnessInput.requestChanges then "REQUEST_CHANGES" else "COMMENT") ∧
        r.event ≠ some "APPROVE" :=
  ⟨rfl, rfl, by decide, C4_warnings_force_nonpassing "sha1" c4WitnessInput rfl rfl (by decide)⟩

/-- C6 counterexample: in the lint path with zero issues, zero warnings and
auto-approve disabled, the review event is COMMENT and the body is empty,
yet Run still hands the request to sendReview instead of suppressing it. -/
theorem C6_counterexample :
    Run_review "sha" c6CounterInput =
      some { commitID := "sha", body := none, event := some "COMMENT", comments := [] } ∧
      Run_review "sha" c6CounterInput ≠ none := by
  refine ⟨rfl, ?_⟩
  intro h
  exact absurd h (by decide)

/-- C6 amended: a review is suppressed (the run returns without calling
sendReview) exactly when the diff has no Go code, the configured no-changes
text is empty and auto-approve is disabled; in the lint path a review is
always submitted, even with an empty body and a COMMENT event. -/
theorem C6_suppression_characterization (sha : String) (inp : RunInput) :
    Run_review sha inp = none ↔
      inp.goCode = false ∧ inp.noChangesText = "" ∧ inp.approve = false := by
  cases hgo : inp.goCode <;> by_cases ht : inp.noChangesText = "" <;>
    cases ha : inp.approve <;> simp [Run_review, hgo, ht, ha]

/-- C5 counterexample: the run never fetches the comments already posted on
the pull request; the dedup loop compares only against the request list
being built. With no posted comment matching anything, two identical
findings still collapse to one comment, so "findings matching no existing
comment are all retained" fails. -/
theorem C5_counterexample :
    RunV1_comments true [c5Issue, c5Issue] =
      [{ path := "a.go", position := 5, body := "unused var (from unused)" }] ∧
      (RunV1_comments true [c5Issue, c5Issue]).length ≠ [c5Issue, c5Issue].length := by
  refine ⟨rfl, ?_⟩
  intro h
  exact absurd h (by decide)

lemma dedup_foldl_inv (g : GoIssue → DraftReviewComment) (issues : List GoIssue) :
    ∀ acc : List DraftReviewComment, acc.Nodup →
      (issues.foldl (fun acc i => if acc.contains (g i) then acc else acc ++ [g i]) acc).Nodup ∧
      ∀ c : DraftReviewComment,
        c ∈ issues.foldl (fun acc i => if acc.contains (g i) then acc else acc ++ [g i]) acc ↔
          c ∈ acc ∨ c ∈ issues.map g := by
  induction issues with
  | nil =>
    intro acc hacc
    refine ⟨hacc, ?_⟩
    intro c
    simp
  | cons i rest ih =>
    intro acc hacc
    rw [List.foldl_cons]
    by_cases hc : acc.contains (g i)
    · rw [if_pos hc]
      obtain ⟨h1, h2⟩ := ih acc hacc
      refine ⟨h1, ?_⟩
      intro c
      rw [h2 c]
      have hmem : g i ∈ acc := by
        simpa using hc
      constructor
      · rintro (h | h)
        · exact Or.inl h
        · exact Or.inr (List.mem_cons_of_mem _ h)
      · rintro (h | h)
        · exact Or.inl h
        · rcases List.mem_cons.1 h with rfl | h
          · exact Or.inl hmem
          · exact Or.inr h
    · rw [if_neg hc]
      have hni : g i ∉ acc := by
        intro hmem
        exact hc (by simpa using hmem)
      have hacc2 : (acc ++ [g i]).Nodup := by
        rw [List.nodup_append]
        refine ⟨hacc, by simp, ?_⟩
        intro a ha hb
        rw [List.mem_singleton] at hb
        subst hb
        exact hni ha
      obtain ⟨h1, h2⟩ := ih (acc ++ [g i]) hacc2
      refine ⟨h1, ?_⟩
      intro c
      rw [h2 c, List.mem_append, List.mem_singleton]
      constructor
      · rintro ((h | h) | h)
        · exact Or.inl h
        · exact Or.inr (h ▸ List.mem_cons_self _ _)
        · exact Or.inr (List.mem_cons_of_mem _ h)
      · rintro (h | h)
        · exact Or.inl (Or.inl h)
        · rcases List.mem_cons.1 h with h | h
          · exact Or.inl (Or.inr h)
          · exact Or.inr h

/-- C5 amended: a comment is in the built review request iff some finding of
this run renders to it, and the built list is duplicate-free: a finding is
dropped exactly when an earlier finding of the same run already produced an
identical (path, position, body) triple; comments previously posted on the
pull request play no part. -/
theorem C5_dedup_within_request (includeLinterName : Bool) (issues : List GoIssue) :
    (RunV1_comments includeLinterName issues).Nodup ∧
      ∀ c : DraftReviewComment,
        c ∈ RunV1_comments includeLinterName issues ↔
          c ∈ issues.map (renderComment includeLinterName) := by
  have heq : RunV1_comments includeLinterName issues =
      issues.foldl
        (fun acc i => if acc.contains (renderComment includeLinterName i) then acc
          else acc ++ [renderComment includeLinterName i]) [] := rfl
  obtain ⟨h1, h2⟩ := dedup_foldl_inv (renderComment includeLinterName) issues [] List.nodup_nil
  rw [heq]
  refine ⟨h1, ?_⟩
  intro c
  rw [h2 c]
  simp

/-- C3 (code bug): the runner.go revision at lines 463-484 fills the draft
comment's position from the issue's absolute LineNumber instead of its
diff-relative HunkPos: an issue at LineNumber 7 with HunkPos 2 is submitted
at position 7.  The current revision (part_005 lines 264-283) uses HunkPos. -/
theorem C3_position_uses_lineNumber :
    RunV2_comments false [c3Issue] =
      [{ path := "a.go", position := 7, body := "x" }] ∧
    c3Issue.line = 7 ∧ c3Issue.hunkPos ≠ 7 ∧
    Run_comments false [c3Issue] =
      [{ path := "a.go", position := 2, body := "x" }] := by
  refine ⟨rfl, rfl, ?_, rfl⟩
  intro h
  exact absurd h (by decide)

/-- C9: when the queue already holds queueSize pending runs, a further
pull-request event is rejected with the 503 service-unavailable wire error,
nothing is enqueued, and the pending runs are unchanged. -/
theorem C9_queue_full_rejected {α : Type} (queue : List α) (queueSize : Nat) (r : α)
    (h : queue.length = queueSize) :
    handlePullRequestOpened_enqueue queue queueSize r =
      (Except.error { statusCode := 503, publicError := "try again later",
                      privateError := "queue is full" }, queue) := by
  rw [handlePullRequestOpened_enqueue, if_neg (by omega)]

/-- Witness for C9: a queue of three pending runs at capacity three. -/
theorem C9_queue_full_rejected_witness :
    ([1, 2, 3] : List Nat).length = 3 ∧
      handlePullRequestOpened_enqueue ([1, 2, 3] : List Nat) 3 (4 : Nat) =
        (Except.error { statusCode := 503, publicError := "try again later",
                        privateError := "queue is full" }, [1, 2, 3]) :=
  ⟨rfl, C9_queue_full_rejected [1, 2, 3] 3 4 rfl⟩
